import Mathlib

/-!
# yamlmerge: the recursive merge and the role lookup of `cmd/yamlmerge/main.go`

The Go program decodes a YAML document into `map[interface{}]interface{}` and
works on dynamically typed values.  The embedding below keeps that shape:

* `Scalar` is a hashable dynamic value (what a map key can be); an integer is
  a Go `int` or a Go `uint64`, on a 64-bit platform, each within the range of
  its type: the decoder gives `int` to an integer that fits `int` and `uint64`
  to one above that range, and two keys are equal when type and value are;
* `Node` is a dynamic value: a scalar, a `float64` (given by its bit pattern),
  a `[]interface{}` or a `map[interface{}]interface{}`; maps with `float64`
  keys are outside the model;
* a Go map is an association list whose keys are pairwise distinct
  (`keysNodup`, `Node.WF`); the order of the list is the order in which a
  `range` loop visits the entries, so a statement over every list is a
  statement over every iteration order;
* a failed type assertion `x.(T)` is a run-time panic, `log.Fatalf` ends the
  process with a message: both are values of `Failure`.
-/

namespace YamlMerge

/-- The values of the Go type `int` on a 64-bit platform. -/
abbrev GoInt : Type := {i : Int // -9223372036854775808 ≤ i ∧ i ≤ 9223372036854775807}

/-- The values of the Go type `uint64`. -/
abbrev GoUint64 : Type := {n : Nat // n ≤ 18446744073709551615}

/-- Hashable dynamic values: the scalars of a decoded YAML document. -/
inductive Scalar where
  | str (s : String)
  | int (i : GoInt)
  | uint64 (n : GoUint64)
  | bool (b : Bool)
  | null
  deriving DecidableEq, Repr

/-- Dynamic values held in an `interface{}` after decoding. -/
inductive Node where
  | scalar (s : Scalar)
  | float (bits : Nat)
  | seq (items : List Node)
  | map (entries : List (Scalar × Node))
  deriving Repr

/-- Dynamic type of a value, as a failed type assertion reports it. -/
inductive Kind where
  | nil
  | string
  | int
  | uint64
  | bool
  | float64
  | slice
  | map
  deriving DecidableEq, Repr

/-- Ways in which the program stops without a result. -/
inductive Failure where
  /-- The panic of `x.(T)`, whose message gives the dynamic type found and the
  type asserted. -/
  | interfaceConversion (concrete asserted : Kind)
  /-- The panic of `reflect.Value.Interface` called on the zero Value, which is
  what `reflect.ValueOf` gives for the nil interface value. -/
  | reflectZeroValue
  /-- The call of `log.Fatalf` at line 106, with the role and the input file
  of its message. -/
  | roleNotFound (role inputFile : String)
  deriving DecidableEq, Repr

/-- Dynamic type of a scalar. -/
def Scalar.kind : Scalar → Kind
  | .str _ => .string
  | .int _ => .int
  | .uint64 _ => .uint64
  | .bool _ => .bool
  | .null => .nil

/-- Dynamic type of a value. -/
def Node.kind : Node → Kind
  | .scalar s => s.kind
  | .float _ => .float64
  | .seq _ => .slice
  | .map _ => .map

/-- The test `reflect.ValueOf(v).Kind() == reflect.Map`. -/
def Node.isMap : Node → Bool
  | .map _ => true
  | _ => false

/-- The type assertion `x.(map[interface{}]interface{})`. -/
def assertMap : Node → Except Failure (List (Scalar × Node))
  | .map m => .ok m
  | v => .error (.interfaceConversion v.kind .map)

/-- The panic of `reflect.ValueOf(x).Interface().(map[interface{}]interface{})`
on a value that is not a map: `Interface` panics on nil, the type assertion on
anything else. -/
def reflectMapPanic : Node → Failure
  | .scalar .null => .reflectZeroValue
  | v => .interfaceConversion v.kind .map

/-- The expression `reflect.ValueOf(x).Interface().(map[interface{}]interface{})`
of lines 139 and 140. -/
def reflectMap : Node → Except Failure (List (Scalar × Node))
  | .map m => .ok m
  | v => .error (reflectMapPanic v)

/-- The map read `m[k]` with the comma-ok flag: the value under `k`, if any. -/
def get (k : Scalar) : List (Scalar × Node) → Option Node
  | [] => none
  | (k', v) :: rest => if k = k' then some v else get k rest

/-- The map write `m[k] = v`: replaces the value of an existing key, adds a new
key otherwise. -/
def put (k : Scalar) (v : Node) : List (Scalar × Node) → List (Scalar × Node)
  | [] => [(k, v)]
  | (k', v') :: rest => if k = k' then (k', v) :: rest else (k', v') :: put k v rest

/-- The keys of a map, in iteration order. -/
def keys (m : List (Scalar × Node)) : List Scalar :=
  m.map Prod.fst

/-- The second loop of `merge`, lines 155-160, over the entries of `roleValue`
still to visit. -/
def mergeRole (appValue : List (Scalar × Node)) :
    List (Scalar × Node) → List (Scalar × Node) → List (Scalar × Node)
  | [], outmap => outmap
  | (k, v) :: rest, outmap =>
    match get k appValue with
    | none => mergeRole appValue rest (put k v outmap)
    | some _ => mergeRole appValue rest outmap

mutual
/-- The function `merge(role, app)` of main.go, lines 136-162.  Line 139 is
evaluated before line 140 whatever `app` is; the loops run when both are
maps. -/
def merge (role : Node) : Node → Except Failure (List (Scalar × Node))
  | .map appValue =>
    match reflectMap role with
    | .error e => .error e
    | .ok roleValue =>
      match mergeApp roleValue appValue [] with
      | .error e => .error e
      | .ok outmap => .ok (mergeRole appValue roleValue outmap)
  | .scalar s =>
    match reflectMap role with
    | .error e => .error e
    | .ok _ => .error (reflectMapPanic (.scalar s))
  | .float f =>
    match reflectMap role with
    | .error e => .error e
    | .ok _ => .error (reflectMapPanic (.float f))
  | .seq items =>
    match reflectMap role with
    | .error e => .error e
    | .ok _ => .error (reflectMapPanic (.seq items))

/-- The first loop of `merge`, lines 143-152, over the entries of `appValue`
still to visit. -/
def mergeApp (roleValue : List (Scalar × Node)) :
    List (Scalar × Node) → List (Scalar × Node) → Except Failure (List (Scalar × Node))
  | [], outmap => .ok outmap
  | (k, v) :: rest, outmap =>
    match get k roleValue with
    | none => mergeApp roleValue rest (put k v outmap)
    | some roleMapValue =>
      if v.isMap then
        match merge roleMapValue v with
        | .error e => .error e
        | .ok m => mergeApp roleValue rest (put k (.map m) outmap)
      else
        mergeApp roleValue rest (put k roleMapValue outmap)
end

/-- The type assertion `k.(string)`. -/
def assertString : Scalar → Except Failure String
  | .str s => .ok s
  | k => .error (.interfaceConversion k.kind .string)

/-- The loop of `getStringKeys`, lines 126-131: `i` is the next index to fill
and `roles` the slice filled so far. -/
def getStringKeysLoop :
    List (Scalar × Node) → Nat → List String → Except Failure (List String)
  | [], _, roles => .ok roles
  | (k, _) :: rest, i, roles =>
    match assertString k with
    | .error e => .error e
    | .ok kString => getStringKeysLoop rest (i + 1) (roles.set i kString)

/-- The function `getStringKeys(roleMap)` of main.go, lines 123-133. -/
def getStringKeys (roleMap : List (Scalar × Node)) : Except Failure (List String) :=
  getStringKeysLoop roleMap 0 (List.replicate roleMap.length "")

/-- The map read `m[k]` without the comma-ok flag: an absent key gives the nil
interface value. -/
def index (k : Scalar) (m : List (Scalar × Node)) : Node :=
  (get k m).getD (.scalar .null)

/-- Role resolution, lines 102-110 of `main`: the pair
`(baseMap, roleEnvironmentMap)` handed to `merge`. -/
def resolve (configMap : List (Scalar × Node)) (inputFile defaultRole role : String) :
    Except Failure (List (Scalar × Node) × List (Scalar × Node)) :=
  match assertMap (index (.str defaultRole) configMap) with
  | .error e => .error e
  | .ok baseMap =>
    match get (.str role) configMap with
    | none => .error (.roleNotFound role inputFile)
    | some roleMapValue =>
      match assertMap roleMapValue with
      | .error e => .error e
      | .ok roleEnvironmentMap => .ok (baseMap, roleEnvironmentMap)

/-- What `main` hands to its printing code. -/
inductive Output where
  | roots (availableRoles : List String)
  | merged (mp : List (Scalar × Node))
  deriving Repr

/-- The part of `main` after decoding, lines 91-112: `configMap` is the decoded
document, `getroles` the flag `--get-roots`. -/
def run (configMap : List (Scalar × Node)) (inputFile defaultRole role : String)
    (getroles : Bool) : Except Failure Output :=
  if getroles then
    match getStringKeys configMap with
    | .error e => .error e
    | .ok availableRoles => .ok (.roots availableRoles)
  else
    match resolve configMap inputFile defaultRole role with
    | .error e => .error e
    | .ok (baseMap, roleEnvironmentMap) =>
      match merge (.map roleEnvironmentMap) (.map baseMap) with
      | .error e => .error e
      | .ok mp => .ok (.merged mp)

/-- The keys of a map are pairwise distinct. -/
def keysNodup (m : List (Scalar × Node)) : Bool :=
  decide (keys m).Nodup

mutual
/-- A value is well formed when every map in it, at any depth, has pairwise
distinct keys: the invariant of the Go map type. -/
def Node.WF : Node → Bool
  | .scalar _ => true
  | .float _ => true
  | .seq items => itemsWF items
  | .map entries => keysNodup entries && entriesWF entries

/-- Every item of a sequence is well formed. -/
def itemsWF : List Node → Bool
  | [] => true
  | n :: rest => n.WF && itemsWF rest

/-- Every value of a map is well formed. -/
def entriesWF : List (Scalar × Node) → Bool
  | [] => true
  | (_, v) :: rest => v.WF && entriesWF rest
end

mutual
/-- Along every path of keys present in both trees, wherever the base value is
a mapping the override value is a mapping too; `roleValue` is the override and
the list argument the base. -/
def compatible (roleValue : List (Scalar × Node)) : List (Scalar × Node) → Bool
  | [] => true
  | (k, v) :: rest => compatibleAt (get k roleValue) v && compatible roleValue rest

/-- The condition of `compatible` at one key of the base: `roleMapValue` is
what the override holds under that key, if anything. -/
def compatibleAt (roleMapValue : Option Node) : Node → Bool
  | .map a =>
    match roleMapValue with
    | none => true
    | some (.map r) => compatible r a
    | some _ => false
  | _ => true
end

/-- The value found by following a path of keys down through nested maps. -/
def getPath : List Scalar → Node → Option Node
  | [], n => some n
  | k :: ks, .map m =>
    match get k m with
    | none => none
    | some v => getPath ks v
  | _ :: _, _ => none

/-! ## Example documents -/

/-- The conversion `int(i)` of an integer to the 64-bit type `int`: the value
itself within the range of `int`, wrapped around modulo 2^64 outside it. -/
def toInt (i : Int) : GoInt :=
  ⟨(i + 9223372036854775808) % 18446744073709551616 - 9223372036854775808, by omega⟩

/-- The scalar `int(i)`. -/
def num (i : Int) : Node := .scalar (.int (toInt i))

/-- The largest `uint64`, 18446744073709551615, which does not fit `int`. -/
def maxUint64 : Node := .scalar (.uint64 ⟨18446744073709551615, by decide⟩)

/-- The base `{a: {x: 1, y: 2}, z: 5}`. -/
def exBase : List (Scalar × Node) :=
  [(.str "a", .map [(.str "x", num 1), (.str "y", num 2)]), (.str "z", num 5)]

/-- The override `{a: {y: 9}, w: 7}`. -/
def exOverride : List (Scalar × Node) :=
  [(.str "a", .map [(.str "y", num 9)]), (.str "w", num 7)]

/-- The merged map `{a: {x: 1, y: 9}, z: 5, w: 7}`. -/
def exMerged : List (Scalar × Node) :=
  [(.str "a", .map [(.str "x", num 1), (.str "y", num 9)]), (.str "z", num 5),
    (.str "w", num 7)]

/-- A base nested three levels deep: `{l1: {l2: {l3: 1, s3: 2}, s2: 3}, s1: 4}`. -/
def exDeepBase : List (Scalar × Node) :=
  [(.str "l1", .map [(.str "l2", .map [(.str "l3", num 1), (.str "s3", num 2)]),
      (.str "s2", num 3)]),
    (.str "s1", num 4)]

/-- An override of the single leaf `l1.l2.l3`. -/
def exDeepOverride : List (Scalar × Node) :=
  [(.str "l1", .map [(.str "l2", .map [(.str "l3", num 9)])])]

/-- The base `exDeepBase` with the leaf `l1.l2.l3` replaced. -/
def exDeepMerged : List (Scalar × Node) :=
  [(.str "l1", .map [(.str "l2", .map [(.str "l3", num 9), (.str "s3", num 2)]),
      (.str "s2", num 3)]),
    (.str "s1", num 4)]

/-- A base with a sequence and a scalar: `{ports: [80, 443], name: app}`. -/
def exSeqBase : List (Scalar × Node) :=
  [(.str "ports", .seq [num 80, num 443]), (.str "name", .scalar (.str "app"))]

/-- An override of the sequence: `{ports: [8080]}`. -/
def exSeqOverride : List (Scalar × Node) :=
  [(.str "ports", .seq [num 8080])]

/-- A document with the roots `base` and `prod`. -/
def exDoc : List (Scalar × Node) :=
  [(.str "base", .map exBase), (.str "prod", .map exOverride)]

/-- A document whose roots `base` and `other` are scalars. -/
def exScalarRoots : List (Scalar × Node) :=
  [(.str "base", num 1), (.str "other", num 2), (.str "prod", .map exOverride)]

/-- A document whose root `big` is the integer 18446744073709551615 and whose
root `none` is null. -/
def exBigRoot : List (Scalar × Node) :=
  [(.str "base", .map exBase), (.str "big", maxUint64), (.str "none", .scalar .null)]

/-- A document with three roots. -/
def exThreeRoots : List (Scalar × Node) :=
  [(.str "base", .map exBase), (.str "staging", .map []), (.str "prod", .map exOverride)]

/-! ## Reading and writing association lists -/

theorem toInt_val (i : Int) (h : -9223372036854775808 ≤ i ∧ i ≤ 9223372036854775807) :
    (toInt i).val = i := by
  simp only [toInt]
  omega

theorem get_put_self (k : Scalar) (v : Node) (m : List (Scalar × Node)) :
    get k (put k v m) = some v := by
  induction m with
  | nil => simp [put, get]
  | cons p rest ih =>
    obtain ⟨k', v'⟩ := p
    by_cases h : k = k'
    · simp [put, get, h]
    · simp [put, get, h, ih]

theorem get_put_ne {k k' : Scalar} (h : k ≠ k') (v : Node) (m : List (Scalar × Node)) :
    get k (put k' v m) = get k m := by
  induction m with
  | nil => simp [put, get, h]
  | cons p rest ih =>
    obtain ⟨k'', v''⟩ := p
    by_cases h' : k' = k''
    · subst h'
      simp [put, get, h]
    · by_cases h'' : k = k''
      · simp [put, get, h', h'']
      · simp [put, get, h', h'', ih]

theorem get_eq_none_iff (k : Scalar) (m : List (Scalar × Node)) :
    get k m = none ↔ k ∉ keys m := by
  induction m with
  | nil => simp [get, keys]
  | cons p rest ih =>
    obtain ⟨k', v'⟩ := p
    by_cases h : k = k'
    · simp [get, keys, h]
    · simp only [keys] at ih
      simp [get, keys, h, ih]

theorem mem_keys_of_get {k : Scalar} {v : Node} {m : List (Scalar × Node)}
    (h : get k m = some v) : k ∈ keys m := by
  by_contra hk
  rw [(get_eq_none_iff k m).mpr hk] at h
  cases h

theorem mem_keys_put (j k : Scalar) (v : Node) (m : List (Scalar × Node)) :
    j ∈ keys (put k v m) ↔ j = k ∨ j ∈ keys m := by
  induction m with
  | nil => simp [put, keys]
  | cons p rest ih =>
    obtain ⟨k', v'⟩ := p
    by_cases h : k = k'
    · subst h
      simp [put, keys]
    · simp only [keys] at ih
      simp only [put, h, if_false, keys, List.map_cons, List.mem_cons, ih]
      tauto

theorem put_of_not_mem {k : Scalar} (v : Node) {m : List (Scalar × Node)}
    (h : k ∉ keys m) : put k v m = m ++ [(k, v)] := by
  induction m with
  | nil => simp [put]
  | cons p rest ih =>
    obtain ⟨k', v'⟩ := p
    simp only [keys, List.map_cons, List.mem_cons, not_or] at h
    simp only [keys] at ih
    simp [put, h.1, ih h.2]

/-! ## The second loop of `merge` -/

theorem get_mergeRole_of_not_mem (app : List (Scalar × Node)) (k : Scalar) :
    ∀ (rest out : List (Scalar × Node)), k ∉ keys rest →
      get k (mergeRole app rest out) = get k out := by
  intro rest
  induction rest with
  | nil => intro out _; rfl
  | cons p rest ih =>
    obtain ⟨k', v'⟩ := p
    intro out hk
    simp only [keys, List.map_cons, List.mem_cons, not_or] at hk
    simp only [mergeRole]
    split
    · rw [ih _ hk.2, get_put_ne hk.1]
    · exact ih _ hk.2

theorem get_mergeRole_of_mem_app (app : List (Scalar × Node)) {k : Scalar} {x : Node}
    (hx : get k app = some x) :
    ∀ (rest out : List (Scalar × Node)), get k (mergeRole app rest out) = get k out := by
  intro rest
  induction rest with
  | nil => intro out; rfl
  | cons p rest ih =>
    obtain ⟨k', v'⟩ := p
    intro out
    simp only [mergeRole]
    split
    · rename_i hnone
      have hne : k ≠ k' := by
        intro h
        subst h
        rw [hx] at hnone
        cases hnone
      rw [ih, get_put_ne hne]
    · exact ih _

theorem get_mergeRole_of_mem (app : List (Scalar × Node)) {k : Scalar} {v : Node}
    (hk : get k app = none) :
    ∀ (rest out : List (Scalar × Node)), (keys rest).Nodup → get k rest = some v →
      get k (mergeRole app rest out) = some v := by
  intro rest
  induction rest with
  | nil => intro out _ h; simp [get] at h
  | cons p rest ih =>
    obtain ⟨k', v'⟩ := p
    intro out hnd h
    simp only [keys, List.map_cons, List.nodup_cons] at hnd
    by_cases hkk : k = k'
    · subst hkk
      simp only [get, if_true, Option.some.injEq] at h
      subst h
      simp only [mergeRole, hk]
      rw [get_mergeRole_of_not_mem app k rest _ hnd.1, get_put_self]
    · simp only [get, hkk, if_false] at h
      simp only [mergeRole]
      split
      · exact ih _ hnd.2 h
      · exact ih _ hnd.2 h

theorem mem_keys_mergeRole (app : List (Scalar × Node)) (j : Scalar) :
    ∀ (rest out : List (Scalar × Node)),
      j ∈ keys (mergeRole app rest out) ↔ j ∈ keys out ∨ (j ∈ keys rest ∧ get j app = none) := by
  intro rest
  induction rest with
  | nil => intro out; simp [mergeRole, keys]
  | cons p rest ih =>
    obtain ⟨k', v'⟩ := p
    intro out
    simp only [mergeRole]
    split
    · rename_i hnone
      rw [ih, mem_keys_put]
      simp only [keys, List.map_cons, List.mem_cons]
      constructor
      · rintro ((h | h) | h)
        · subst h; exact Or.inr ⟨Or.inl rfl, hnone⟩
        · exact Or.inl h
        · exact Or.inr ⟨Or.inr h.1, h.2⟩
      · rintro (h | ⟨h | h, h'⟩)
        · exact Or.inl (Or.inr h)
        · exact Or.inl (Or.inl h)
        · exact Or.inr ⟨h, h'⟩
    · rename_i x hsome
      rw [ih]
      simp only [keys, List.map_cons, List.mem_cons]
      constructor
      · rintro (h | h)
        · exact Or.inl h
        · exact Or.inr ⟨Or.inr h.1, h.2⟩
      · rintro (h | ⟨h | h, h'⟩)
        · exact Or.inl h
        · subst h
          rw [hsome] at h'
          cases h'
        · exact Or.inr ⟨h, h'⟩

theorem nodup_keys_put {k : Scalar} (v : Node) {m : List (Scalar × Node)}
    (h : (keys m).Nodup) : (keys (put k v m)).Nodup := by
  induction m with
  | nil => simp [put, keys]
  | cons p rest ih =>
    obtain ⟨k', v'⟩ := p
    simp only [keys, List.map_cons, List.nodup_cons] at h
    by_cases hk : k = k'
    · subst hk
      simpa [put, keys] using h
    · have h1 : k' ∉ keys (put k v rest) := by
        rw [mem_keys_put]
        rintro (h' | h')
        · exact hk h'.symm
        · exact h.1 h'
      simp only [put, hk, if_false, keys, List.map_cons, List.nodup_cons]
      exact ⟨h1, ih h.2⟩

theorem nodup_keys_mergeRole (app : List (Scalar × Node)) :
    ∀ (rest out : List (Scalar × Node)), (keys out).Nodup →
      (keys (mergeRole app rest out)).Nodup := by
  intro rest
  induction rest with
  | nil => intro out h; exact h
  | cons p rest ih =>
    obtain ⟨k', v'⟩ := p
    intro out h
    simp only [mergeRole]
    split
    · exact ih _ (nodup_keys_put _ h)
    · exact ih _ h

/-! ## The first loop of `merge` -/

/-- One turn of the first loop: the value `x` written under `k`. -/
theorem mergeApp_cons {role rest out out' : List (Scalar × Node)} {k : Scalar} {v : Node}
    (h : mergeApp role ((k, v) :: rest) out = .ok out') :
    ∃ x, mergeApp role rest (put k x out) = .ok out' ∧
      (get k role = none → x = v) ∧
      (∀ rv, get k role = some rv → v.isMap = false → x = rv) ∧
      (∀ rv, get k role = some rv → v.isMap = true →
        ∃ m, merge rv v = .ok m ∧ x = .map m) := by
  simp only [mergeApp] at h
  split at h
  · rename_i hnone
    refine ⟨v, h, fun _ => rfl, ?_, ?_⟩
    · intro rv hrv; rw [hnone] at hrv; cases hrv
    · intro rv hrv; rw [hnone] at hrv; cases hrv
  · rename_i rv hsome
    split at h
    · rename_i hmap
      split at h
      · cases h
      · rename_i m hm
        refine ⟨.map m, h, ?_, ?_, ?_⟩
        · intro hn; rw [hsome] at hn; cases hn
        · intro rv' _ hf; rw [hmap] at hf; cases hf
        · intro rv' hrv' _
          rw [hsome] at hrv'
          cases hrv'
          exact ⟨m, hm, rfl⟩
    · rename_i hmap
      refine ⟨rv, h, ?_, ?_, ?_⟩
      · intro hn; rw [hsome] at hn; cases hn
      · intro rv' hrv' _
        rw [hsome] at hrv'
        cases hrv'
        rfl
      · intro rv' _ ht
        exact absurd ht hmap

theorem get_mergeApp_of_not_mem (role : List (Scalar × Node)) (k : Scalar) :
    ∀ (rest out out' : List (Scalar × Node)), mergeApp role rest out = .ok out' →
      k ∉ keys rest → get k out' = get k out := by
  intro rest
  induction rest with
  | nil =>
    intro out out' h _
    simp only [mergeApp, Except.ok.injEq] at h
    rw [h]
  | cons p rest ih =>
    obtain ⟨k', v'⟩ := p
    intro out out' h hk
    simp only [keys, List.map_cons, List.mem_cons, not_or] at hk
    obtain ⟨x, hx, _⟩ := mergeApp_cons h
    rw [ih _ _ hx hk.2, get_put_ne hk.1]

theorem get_mergeApp_of_mem (role : List (Scalar × Node)) (k : Scalar) (v : Node) :
    ∀ (rest out out' : List (Scalar × Node)), (keys rest).Nodup →
      mergeApp role rest out = .ok out' → get k rest = some v →
      (get k role = none → get k out' = some v) ∧
      (∀ rv, get k role = some rv → v.isMap = false → get k out' = some rv) ∧
      (∀ rv, get k role = some rv → v.isMap = true →
        ∃ m, merge rv v = .ok m ∧ get k out' = some (.map m)) := by
  intro rest
  induction rest with
  | nil => intro out out' _ _ h; simp [get] at h
  | cons p rest ih =>
    obtain ⟨k', v'⟩ := p
    intro out out' hnd h hget
    simp only [keys, List.map_cons, List.nodup_cons] at hnd
    obtain ⟨x, hx, h1, h2, h3⟩ := mergeApp_cons h
    by_cases hkk : k = k'
    · subst hkk
      simp only [get, if_true, Option.some.injEq] at hget
      subst hget
      have hout : get k out' = some x := by
        rw [get_mergeApp_of_not_mem role k rest _ _ hx hnd.1, get_put_self]
      refine ⟨fun hn => ?_, fun rv hrv hf => ?_, fun rv hrv ht => ?_⟩
      · rw [hout, h1 hn]
      · rw [hout, h2 rv hrv hf]
      · obtain ⟨m, hm, hxm⟩ := h3 rv hrv ht
        exact ⟨m, hm, by rw [hout, hxm]⟩
    · simp only [get, hkk, if_false] at hget
      exact ih _ _ hnd.2 hx hget

theorem mem_keys_mergeApp (role : List (Scalar × Node)) (j : Scalar) :
    ∀ (rest out out' : List (Scalar × Node)), mergeApp role rest out = .ok out' →
      (j ∈ keys out' ↔ j ∈ keys out ∨ j ∈ keys rest) := by
  intro rest
  induction rest with
  | nil =>
    intro out out' h
    simp only [mergeApp, Except.ok.injEq] at h
    simp [h, keys]
  | cons p rest ih =>
    obtain ⟨k', v'⟩ := p
    intro out out' h
    obtain ⟨x, hx, _⟩ := mergeApp_cons h
    rw [ih _ _ hx, mem_keys_put]
    simp only [keys, List.map_cons, List.mem_cons]
    tauto

theorem nodup_keys_mergeApp (role : List (Scalar × Node)) :
    ∀ (rest out out' : List (Scalar × Node)), mergeApp role rest out = .ok out' →
      (keys out).Nodup → (keys out').Nodup := by
  intro rest
  induction rest with
  | nil =>
    intro out out' h hnd
    simp only [mergeApp, Except.ok.injEq] at h
    rw [← h]
    exact hnd
  | cons p rest ih =>
    obtain ⟨k', v'⟩ := p
    intro out out' h hnd
    obtain ⟨x, hx, _⟩ := mergeApp_cons h
    exact ih _ _ hx (nodup_keys_put _ hnd)

/-- The two loops of `merge` on two maps. -/
theorem merge_map_ok {O B R : List (Scalar × Node)} (h : merge (.map O) (.map B) = .ok R) :
    ∃ out, mergeApp O B [] = .ok out ∧ R = mergeRole B O out := by
  simp only [merge, reflectMap] at h
  split at h
  · cases h
  · rename_i out hout
    simp only [Except.ok.injEq] at h
    exact ⟨out, hout, h.symm⟩

/-! ## Induction over values and well-formedness -/

/-- Induction over a value, with the hypothesis available for every item of a
sequence and every value of a map. -/
theorem Node.ind {P : Node → Prop} (hs : ∀ s, P (.scalar s)) (hf : ∀ bits, P (.float bits))
    (hq : ∀ items, (∀ x ∈ items, P x) → P (.seq items))
    (hm : ∀ entries, (∀ p ∈ entries, P p.2) → P (.map entries)) : ∀ n, P n :=
  @Node.rec P (fun l => ∀ x ∈ l, P x) (fun l => ∀ p ∈ l, P p.2) (fun p => P p.2)
    hs hf hq hm
    (fun _ hx => by cases hx)
    (fun _ _ h1 h2 x hx => by
      rcases List.mem_cons.mp hx with h | h
      · rw [h]; exact h1
      · exact h2 x h)
    (fun _ hp => by cases hp)
    (fun _ _ h1 h2 p hp => by
      rcases List.mem_cons.mp hp with h | h
      · rw [h]; exact h1
      · exact h2 p h)
    (fun _ _ h => h)

theorem wf_of_mem_entries : ∀ (entries : List (Scalar × Node)), entriesWF entries = true →
    ∀ p ∈ entries, p.2.WF = true := by
  intro entries
  induction entries with
  | nil => intro _ p hp; cases hp
  | cons q rest ih =>
    obtain ⟨k, v⟩ := q
    intro h p hp
    simp only [entriesWF, Bool.and_eq_true] at h
    rcases List.mem_cons.mp hp with hq | hq
    · rw [hq]; exact h.1
    · exact ih h.2 p hq

theorem get_of_mem_nodup : ∀ (m : List (Scalar × Node)), (keys m).Nodup →
    ∀ p ∈ m, get p.1 m = some p.2 := by
  intro m
  induction m with
  | nil => intro _ p hp; cases hp
  | cons q rest ih =>
    obtain ⟨k, v⟩ := q
    intro hnd p hp
    simp only [keys, List.map_cons, List.nodup_cons] at hnd
    rcases List.mem_cons.mp hp with hq | hq
    · rw [hq]; simp [get]
    · have hne : p.1 ≠ k := by
        intro h
        apply hnd.1
        rw [← h]
        exact List.mem_map_of_mem Prod.fst hq
      simp only [get, hne, if_false]
      exact ih hnd.2 p hq

theorem keysNodup_iff (m : List (Scalar × Node)) : keysNodup m = true ↔ (keys m).Nodup := by
  simp [keysNodup]

/-! ## Merging a map with itself -/

theorem mergeApp_self (role : List (Scalar × Node)) :
    ∀ (rest out : List (Scalar × Node)),
      (∀ p ∈ rest, get p.1 role = some p.2) →
      (∀ p ∈ rest, ∀ m, p.2 = .map m → merge p.2 p.2 = .ok m) →
      (keys rest).Nodup → (∀ k ∈ keys rest, k ∉ keys out) →
      mergeApp role rest out = .ok (out ++ rest) := by
  intro rest
  induction rest with
  | nil => intro out _ _ _ _; simp [mergeApp]
  | cons q rest ih =>
    obtain ⟨k, v⟩ := q
    intro out hget hrec hnd hdisj
    simp only [keys, List.map_cons, List.nodup_cons] at hnd
    have hk : k ∉ keys out := hdisj k (by simp [keys])
    have hgk : get k role = some v := hget (k, v) (List.mem_cons_self _ _)
    have hnext : mergeApp role rest (out ++ [(k, v)]) = .ok (out ++ (k, v) :: rest) := by
      have := ih (out ++ [(k, v)])
        (fun p hp => hget p (List.mem_cons_of_mem _ hp))
        (fun p hp => hrec p (List.mem_cons_of_mem _ hp))
        hnd.2
        (by
          intro j hj hjo
          simp only [keys, List.map_append, List.map_cons, List.map_nil, List.mem_append,
            List.mem_singleton] at hjo
          rcases hjo with h | h
          · exact hdisj j (by simp only [keys, List.map_cons, List.mem_cons]; exact Or.inr hj) h
          · apply hnd.1
            rw [← h]
            exact hj)
      simpa using this
    simp only [mergeApp, hgk]
    cases v with
    | scalar s =>
      simp only [Node.isMap, Bool.false_eq_true, if_false]
      rw [put_of_not_mem _ hk]
      exact hnext
    | float f =>
      simp only [Node.isMap, Bool.false_eq_true, if_false]
      rw [put_of_not_mem _ hk]
      exact hnext
    | seq items =>
      simp only [Node.isMap, Bool.false_eq_true, if_false]
      rw [put_of_not_mem _ hk]
      exact hnext
    | map m =>
      have hm := hrec (k, .map m) (List.mem_cons_self _ _) m rfl
      simp only [Node.isMap, if_true]
      simp only at hm
      rw [hm]
      simp only
      rw [put_of_not_mem _ hk]
      exact hnext

theorem mergeRole_self (app : List (Scalar × Node)) :
    ∀ (rest out : List (Scalar × Node)), (∀ k ∈ keys rest, k ∈ keys app) →
      mergeRole app rest out = out := by
  intro rest
  induction rest with
  | nil => intro out _; rfl
  | cons q rest ih =>
    obtain ⟨k, v⟩ := q
    intro out h
    have hk : k ∈ keys app := h k (by simp [keys])
    simp only [mergeRole]
    split
    · rename_i hnone
      exact absurd hk ((get_eq_none_iff k app).mp hnone)
    · exact ih out (fun j hj => h j (by
        simp only [keys, List.map_cons, List.mem_cons]; exact Or.inr hj))

theorem self_merge_of_wf : ∀ (n : Node), n.WF = true →
    ∀ m, n = .map m → merge n n = .ok m := by
  intro n
  induction n using Node.ind with
  | hs s => intro _ m h; cases h
  | hf f => intro _ m h; cases h
  | hq items _ => intro _ m h; cases h
  | hm entries ih =>
    intro hwf m h
    cases h
    simp only [Node.WF, Bool.and_eq_true, keysNodup_iff] at hwf
    have happ : mergeApp entries entries [] = .ok ([] ++ entries) :=
      mergeApp_self entries entries []
        (get_of_mem_nodup entries hwf.1)
        (fun p hp m hpm => ih p hp (wf_of_mem_entries entries hwf.2 p hp) m hpm)
        hwf.1
        (fun _ _ h => by simp [keys] at h)
    simp only [List.nil_append] at happ
    simp only [merge, reflectMap, happ]
    rw [mergeRole_self entries entries entries (fun _ h => h)]

/-! ## Success and failure of `merge` -/

theorem mergeApp_ok_of_compatible (role : List (Scalar × Node)) :
    ∀ (rest out : List (Scalar × Node)),
      (∀ p ∈ rest, ∀ r a, p.2 = .map a → compatible r a = true →
        ∃ R, merge (.map r) (.map a) = .ok R) →
      compatible role rest = true → ∃ out', mergeApp role rest out = .ok out' := by
  intro rest
  induction rest with
  | nil => intro out _ _; exact ⟨out, rfl⟩
  | cons q rest ih =>
    obtain ⟨k, v⟩ := q
    intro out hrec hc
    have ih' := fun out => ih out (fun p hp => hrec p (List.mem_cons_of_mem _ hp))
    simp only [compatible, Bool.and_eq_true] at hc
    obtain ⟨hhead, htail⟩ := hc
    simp only [mergeApp]
    cases hg : get k role with
    | none => exact ih' _ htail
    | some rv =>
      cases v with
      | scalar s =>
        simp only [Node.isMap, Bool.false_eq_true, if_false]
        exact ih' _ htail
      | float f =>
        simp only [Node.isMap, Bool.false_eq_true, if_false]
        exact ih' _ htail
      | seq items =>
        simp only [Node.isMap, Bool.false_eq_true, if_false]
        exact ih' _ htail
      | map a =>
        simp only [Node.isMap, if_true]
        rw [hg] at hhead
        cases rv with
        | scalar s => simp [compatibleAt] at hhead
        | float f => simp [compatibleAt] at hhead
        | seq items => simp [compatibleAt] at hhead
        | map r =>
          simp only [compatibleAt] at hhead
          obtain ⟨R, hR⟩ := hrec (k, .map a) (List.mem_cons_self _ _) r a rfl hhead
          rw [hR]
          exact ih' _ htail

theorem ok_of_compatible_node : ∀ (n : Node) (r a : List (Scalar × Node)),
    n = .map a → compatible r a = true → ∃ R, merge (.map r) (.map a) = .ok R := by
  intro n
  induction n using Node.ind with
  | hs s => intro r a h; cases h
  | hf f => intro r a h; cases h
  | hq items _ => intro r a h; cases h
  | hm entries ih =>
    intro r a h hc
    cases h
    obtain ⟨out, hout⟩ := mergeApp_ok_of_compatible r entries []
      (fun p hp r' a' hpa hc' => ih p hp r' a' hpa hc') hc
    exact ⟨mergeRole entries r out, by simp only [merge, reflectMap, hout]⟩

theorem scalar_kind_ne_map (s : Scalar) : s.kind ≠ .map := by
  cases s <;> simp [Scalar.kind]

theorem node_kind_ne_map {v : Node} (h : v.isMap = false) : v.kind ≠ .map := by
  cases v with
  | scalar s => exact scalar_kind_ne_map s
  | float f => simp [Node.kind]
  | seq items => simp [Node.kind]
  | map m => simp [Node.isMap] at h

theorem assertMap_of_not_map {v : Node} (h : v.isMap = false) :
    assertMap v = .error (.interfaceConversion v.kind .map) := by
  cases v with
  | scalar s => rfl
  | float f => rfl
  | seq items => rfl
  | map m => simp [Node.isMap] at h

theorem reflectMap_of_not_map {v : Node} (h : v.isMap = false) :
    reflectMap v = .error (reflectMapPanic v) := by
  cases v with
  | scalar s => rfl
  | float f => rfl
  | seq items => rfl
  | map m => simp [Node.isMap] at h

theorem reflectMap_error {v : Node} {e : Failure} (h : reflectMap v = .error e) :
    v.isMap = false ∧ e = reflectMapPanic v := by
  cases v with
  | scalar s =>
    simp only [reflectMap, Except.error.injEq] at h
    exact ⟨rfl, h.symm⟩
  | float f =>
    simp only [reflectMap, Except.error.injEq] at h
    exact ⟨rfl, h.symm⟩
  | seq items =>
    simp only [reflectMap, Except.error.injEq] at h
    exact ⟨rfl, h.symm⟩
  | map m => simp [reflectMap] at h

/-- The two panics of the map assertion of `merge`. -/
theorem reflectMapPanic_cases {v : Node} (h : v.isMap = false) :
    reflectMapPanic v = .reflectZeroValue ∨
      ∃ c, reflectMapPanic v = .interfaceConversion c .map ∧ c ≠ .map ∧ c ≠ .nil := by
  cases v with
  | scalar s =>
    cases s with
    | str t => exact Or.inr ⟨.string, rfl, by decide, by decide⟩
    | int i => exact Or.inr ⟨.int, rfl, by decide, by decide⟩
    | uint64 n => exact Or.inr ⟨.uint64, rfl, by decide, by decide⟩
    | bool b => exact Or.inr ⟨.bool, rfl, by decide, by decide⟩
    | null => exact Or.inl rfl
  | float f => exact Or.inr ⟨.float64, rfl, by decide, by decide⟩
  | seq items => exact Or.inr ⟨.slice, rfl, by decide, by decide⟩
  | map m => simp [Node.isMap] at h

theorem mergeApp_error_shape (role : List (Scalar × Node)) (e : Failure) :
    ∀ (rest out : List (Scalar × Node)),
      (∀ p ∈ rest, ∀ r e', merge r p.2 = .error e' →
        ∃ x : Node, x.isMap = false ∧ e' = reflectMapPanic x) →
      mergeApp role rest out = .error e →
      ∃ x : Node, x.isMap = false ∧ e = reflectMapPanic x := by
  intro rest
  induction rest with
  | nil => intro out _ h; simp [mergeApp] at h
  | cons q rest ih =>
    obtain ⟨k, v⟩ := q
    intro out hrec h
    have ih' := fun out => ih out (fun p hp => hrec p (List.mem_cons_of_mem _ hp))
    simp only [mergeApp] at h
    split at h
    · exact ih' _ h
    · rename_i rv _
      split at h
      · split at h
        · rename_i e' he'
          simp only [Except.error.injEq] at h
          subst h
          exact hrec (k, v) (List.mem_cons_self _ _) rv e' he'
        · exact ih' _ h
      · exact ih' _ h

/-- Every failure of `merge` is the panic of its map assertion on some value
that is not a map. -/
theorem merge_error_shape : ∀ (app role : Node) (e : Failure), merge role app = .error e →
    ∃ x : Node, x.isMap = false ∧ e = reflectMapPanic x := by
  intro app
  induction app using Node.ind with
  | hs s =>
    intro role e h
    simp only [merge] at h
    split at h
    · rename_i e' he'
      simp only [Except.error.injEq] at h
      subst h
      exact ⟨role, reflectMap_error he'⟩
    · simp only [Except.error.injEq] at h
      exact ⟨.scalar s, rfl, h.symm⟩
  | hf f =>
    intro role e h
    simp only [merge] at h
    split at h
    · rename_i e' he'
      simp only [Except.error.injEq] at h
      subst h
      exact ⟨role, reflectMap_error he'⟩
    · simp only [Except.error.injEq] at h
      exact ⟨.float f, rfl, h.symm⟩
  | hq items _ =>
    intro role e h
    simp only [merge] at h
    split at h
    · rename_i e' he'
      simp only [Except.error.injEq] at h
      subst h
      exact ⟨role, reflectMap_error he'⟩
    · simp only [Except.error.injEq] at h
      exact ⟨.seq items, rfl, h.symm⟩
  | hm entries ih =>
    intro role e h
    simp only [merge] at h
    split at h
    · rename_i e' he'
      simp only [Except.error.injEq] at h
      subst h
      exact ⟨role, reflectMap_error he'⟩
    · rename_i roleValue _
      split at h
      · rename_i e' he'
        simp only [Except.error.injEq] at h
        subst h
        exact mergeApp_error_shape roleValue e' entries [] (fun p hp r e'' => ih p hp r e'') he'
      · cases h

theorem mergeApp_fails_on_mismatch (role : List (Scalar × Node)) {k : Scalar}
    {b : List (Scalar × Node)} {o : Node} (ho : get k role = some o) (hnm : o.isMap = false) :
    ∀ (rest out : List (Scalar × Node)), get k rest = some (.map b) →
      ∃ e, mergeApp role rest out = .error e := by
  intro rest
  induction rest with
  | nil => intro out h; simp [get] at h
  | cons q rest ih =>
    obtain ⟨k', v'⟩ := q
    intro out hget
    by_cases hkk : k = k'
    · subst hkk
      simp only [get, if_true, Option.some.injEq] at hget
      subst hget
      refine ⟨reflectMapPanic o, ?_⟩
      simp only [mergeApp, ho, Node.isMap, if_true, merge, reflectMap_of_not_map hnm]
    · simp only [get, hkk, if_false] at hget
      cases hres : mergeApp role ((k', v') :: rest) out with
      | error e => exact ⟨e, rfl⟩
      | ok out' =>
        obtain ⟨x, hx, _⟩ := mergeApp_cons hres
        obtain ⟨e, he⟩ := ih (put k' x out) hget
        rw [he] at hx
        cases hx

/-- The function `merge` in the order of its source: line 139, line 140, the
first loop, the second loop. -/
theorem merge_eq (role app : Node) :
    merge role app =
      match reflectMap role with
      | .error e => .error e
      | .ok roleValue =>
        match reflectMap app with
        | .error e => .error e
        | .ok appValue =>
          match mergeApp roleValue appValue [] with
          | .error e => .error e
          | .ok outmap => .ok (mergeRole appValue roleValue outmap) := by
  cases app with
  | scalar s => simp only [merge, reflectMap]
  | float f => simp only [merge, reflectMap]
  | seq items => simp only [merge, reflectMap]
  | map m => simp only [merge, reflectMap]

/-! ## The loop of `getStringKeys` -/

theorem getStringKeysLoop_strings :
    ∀ (m : List (Scalar × Node)) (done : List String),
      (∀ k ∈ keys m, ∃ s, k = .str s) →
      ∃ names, names.map Scalar.str = keys m ∧
        getStringKeysLoop m done.length (done ++ List.replicate m.length "") =
          .ok (done ++ names) := by
  intro m
  induction m with
  | nil => intro done _; exact ⟨[], rfl, by simp [getStringKeysLoop]⟩
  | cons q rest ih =>
    obtain ⟨k, v⟩ := q
    intro done h
    obtain ⟨s, hs⟩ := h k (by simp [keys])
    subst hs
    obtain ⟨names, hn, hloop⟩ := ih (done ++ [s]) (fun j hj => h j (by
      simp only [keys, List.map_cons, List.mem_cons]; exact Or.inr hj))
    refine ⟨s :: names, by rw [List.map_cons, hn]; rfl, ?_⟩
    simp only [List.length_append, List.length_singleton, List.append_assoc,
      List.singleton_append] at hloop
    simp only [getStringKeysLoop, assertString, List.length_cons, List.replicate_succ]
    rw [List.set_append_right _ _ (Nat.le_refl _)]
    simpa using hloop

theorem getStringKeysLoop_non_string :
    ∀ (m : List (Scalar × Node)) (i : Nat) (roles : List String),
      (∃ k ∈ keys m, ∀ s, k ≠ .str s) → ∃ e, getStringKeysLoop m i roles = .error e := by
  intro m
  induction m with
  | nil => intro i roles h; simp [keys] at h
  | cons q rest ih =>
    obtain ⟨k, v⟩ := q
    intro i roles h
    cases k with
    | str s =>
      simp only [getStringKeysLoop, assertString]
      apply ih
      obtain ⟨j, hj, hns⟩ := h
      simp only [keys, List.map_cons, List.mem_cons] at hj
      rcases hj with hj | hj
      · exact absurd hj (hns s)
      · exact ⟨j, hj, hns⟩
    | int i' => exact ⟨_, rfl⟩
    | uint64 n => exact ⟨_, rfl⟩
    | bool b => exact ⟨_, rfl⟩
    | null => exact ⟨_, rfl⟩

/-! ## Paths of keys -/

theorem isMap_of_getPath_map {ks : List Scalar} {v : Node} {b : List (Scalar × Node)}
    (h : getPath ks v = some (.map b)) : ∃ m, v = .map m := by
  cases ks with
  | nil =>
    simp only [getPath, Option.some.injEq] at h
    exact ⟨b, h⟩
  | cons k ks =>
    cases v with
    | scalar s => simp [getPath] at h
    | float f => simp [getPath] at h
    | seq items => simp [getPath] at h
    | map m => exact ⟨m, rfl⟩

theorem mem_of_get {k : Scalar} {v : Node} : ∀ {m : List (Scalar × Node)},
    get k m = some v → (k, v) ∈ m := by
  intro m
  induction m with
  | nil => intro h; simp [get] at h
  | cons q rest ih =>
    obtain ⟨k', v'⟩ := q
    intro h
    by_cases hkk : k = k'
    · subst hkk
      simp only [get, if_true, Option.some.injEq] at h
      subst h
      exact List.mem_cons_self _ _
    · simp only [get, hkk, if_false] at h
      exact List.mem_cons_of_mem _ (ih h)

theorem wf_of_getPath : ∀ (path : List Scalar) (n v : Node), n.WF = true →
    getPath path n = some v → v.WF = true := by
  intro path
  induction path with
  | nil =>
    intro n v hwf h
    simp only [getPath, Option.some.injEq] at h
    rw [← h]
    exact hwf
  | cons k ks ih =>
    intro n v hwf h
    cases n with
    | scalar s => simp [getPath] at h
    | float f => simp [getPath] at h
    | seq items => simp [getPath] at h
    | map m =>
      simp only [getPath] at h
      cases hg : get k m with
      | none => rw [hg] at h; cases h
      | some x =>
        rw [hg] at h
        simp only [Node.WF, Bool.and_eq_true] at hwf
        exact ih x v (wf_of_mem_entries m hwf.2 _ (mem_of_get hg)) h

theorem getPath_snoc : ∀ (path : List Scalar) (n : Node) (r : List (Scalar × Node))
    (k : Scalar), getPath path n = some (.map r) → getPath (path ++ [k]) n = get k r := by
  intro path
  induction path with
  | nil =>
    intro n r k h
    simp only [getPath, Option.some.injEq] at h
    subst h
    simp only [List.nil_append, getPath]
    cases get k r <;> rfl
  | cons j js ih =>
    intro n r k h
    cases n with
    | scalar s => simp [getPath] at h
    | float f => simp [getPath] at h
    | seq items => simp [getPath] at h
    | map m =>
      simp only [getPath] at h
      simp only [List.cons_append, getPath]
      cases hg : get j m with
      | none => rw [hg] at h; cases h
      | some x =>
        rw [hg] at h
        exact ih x r k h

theorem merge_at_path : ∀ (path : List Scalar) (B O R b o : List (Scalar × Node)),
    Node.WF (.map B) = true → merge (.map O) (.map B) = .ok R →
    getPath path (.map B) = some (.map b) → getPath path (.map O) = some (.map o) →
    ∃ r, merge (.map o) (.map b) = .ok r ∧ getPath path (.map R) = some (.map r) := by
  intro path
  induction path with
  | nil =>
    intro B O R b o _ hR hb ho
    simp only [getPath, Option.some.injEq, Node.map.injEq] at hb ho
    subst hb
    subst ho
    exact ⟨R, hR, rfl⟩
  | cons k ks ih =>
    intro B O R b o hwf hR hb ho
    simp only [Node.WF, Bool.and_eq_true, keysNodup_iff] at hwf
    simp only [getPath] at hb ho
    cases hgb : get k B with
    | none => rw [hgb] at hb; cases hb
    | some vb =>
      cases hgo : get k O with
      | none => rw [hgo] at ho; cases ho
      | some vo =>
        rw [hgb] at hb
        rw [hgo] at ho
        simp only at hb ho
        obtain ⟨b', hb'⟩ := isMap_of_getPath_map hb
        obtain ⟨o', ho'⟩ := isMap_of_getPath_map ho
        subst hb'
        subst ho'
        obtain ⟨out, hout, hRout⟩ := merge_map_ok hR
        obtain ⟨r', hr', hgr'⟩ :=
          (get_mergeApp_of_mem O k (.map b') B [] out hwf.1 hout hgb).2.2 (.map o') hgo rfl
        have hgR : get k R = some (.map r') := by
          rw [hRout, get_mergeRole_of_mem_app B hgb, hgr']
        have hmem : (k, Node.map b') ∈ B := mem_of_get hgb
        have hwf' : Node.WF (.map b') = true := wf_of_mem_entries B hwf.2 _ hmem
        obtain ⟨r, hr, hgr⟩ := ih b' o' r' b o hwf' hr' hb ho
        refine ⟨r, hr, ?_⟩
        simp only [getPath, hgR]
        exact hgr

theorem mergeApp_ok_of_disjoint (role : List (Scalar × Node)) :
    ∀ (rest out : List (Scalar × Node)), (∀ k ∈ keys rest, get k role = none) →
      ∃ out', mergeApp role rest out = .ok out' := by
  intro rest
  induction rest with
  | nil => intro out _; exact ⟨out, rfl⟩
  | cons q rest ih =>
    obtain ⟨k, v⟩ := q
    intro out h
    have hk : get k role = none := h k (by simp [keys])
    simp only [mergeApp, hk]
    exact ih _ (fun j hj => h j (by
      simp only [keys, List.map_cons, List.mem_cons]; exact Or.inr hj))

/-- Below a path along which both trees hold mappings, a key that the override
lacks keeps the base value and a key whose base value is not a mapping takes
the override value. -/
theorem merge_leaf_at_path (path : List Scalar) (B O R b o : List (Scalar × Node))
    (k : Scalar) (hwf : Node.WF (.map B) = true) (hR : merge (.map O) (.map B) = .ok R)
    (hb : getPath path (.map B) = some (.map b))
    (ho : getPath path (.map O) = some (.map o)) :
    (get k o = none → getPath (path ++ [k]) (.map R) = get k b) ∧
    (∀ x y, get k b = some x → x.isMap = false → get k o = some y →
      getPath (path ++ [k]) (.map R) = some y) := by
  obtain ⟨r, hr, hgr⟩ := merge_at_path path B O R b o hwf hR hb ho
  have hwfb : Node.WF (.map b) = true := wf_of_getPath path (.map B) (.map b) hwf hb
  simp only [Node.WF, Bool.and_eq_true, keysNodup_iff] at hwfb
  obtain ⟨out, hout, hrout⟩ := merge_map_ok hr
  rw [getPath_snoc path (.map R) r k hgr]
  constructor
  · intro hk
    cases hgb : get k b with
    | none =>
      rw [hrout, get_mergeRole_of_not_mem b k o out ((get_eq_none_iff k o).mp hk),
        get_mergeApp_of_not_mem o k b [] out hout ((get_eq_none_iff k b).mp hgb)]
      rfl
    | some v =>
      rw [hrout, get_mergeRole_of_mem_app b hgb]
      exact (get_mergeApp_of_mem o k v b [] out hwfb.1 hout hgb).1 hk
  · intro x y hx hnm hy
    rw [hrout, get_mergeRole_of_mem_app b hx]
    exact (get_mergeApp_of_mem o k x b [] out hwfb.1 hout hx).2.1 y hy hnm

/-! ## The claims -/

/-- C1: for a key present in the base and in the override whose base value is
not a mapping (a scalar or a sequence), the merged map holds the override
value under that key, whatever its kind; sequences are not combined. -/
theorem merge_override_wins_on_non_mapping (B O R : List (Scalar × Node)) (k : Scalar)
    (b o : Node) (hB : keysNodup B = true) (hb : get k B = some b) (ho : get k O = some o)
    (hnm : b.isMap = false) (hR : merge (.map O) (.map B) = .ok R) :
    get k R = some o := by
  obtain ⟨out, hout, hRout⟩ := merge_map_ok hR
  rw [hRout, get_mergeRole_of_mem_app B hb]
  exact (get_mergeApp_of_mem O k b B [] out ((keysNodup_iff B).mp hB) hout hb).2.1 o ho hnm

/-- C1 at the base `{ports: [80, 443], name: app}` and the override
`{ports: [8080]}`: the merged map holds the sequence `[8080]`. -/
theorem merge_override_wins_on_non_mapping_witness :
    merge (.map exSeqOverride) (.map exSeqBase) =
        .ok [(.str "ports", .seq [num 8080]), (.str "name", .scalar (.str "app"))] ∧
      get (.str "ports") [(.str "ports", .seq [num 8080]), (.str "name", .scalar (.str "app"))] =
        some (.seq [num 8080]) :=
  ⟨rfl, merge_override_wins_on_non_mapping exSeqBase exSeqOverride _ (.str "ports")
    (.seq [num 80, num 443]) (.seq [num 8080]) (by decide) rfl rfl rfl rfl⟩

/-- C2: where the base and the override both hold a mapping under a key, the
merged map holds under that key the merge of the two mappings; the same holds
at the end of every path of keys along which both trees hold mappings, and
below such a path a key that the override lacks keeps its base value while a
key whose base value is not a mapping takes the override value; the examples
of the specification evaluate as stated. -/
theorem merge_recurses_on_mappings :
    (∀ (B O R b o : List (Scalar × Node)) (k : Scalar), keysNodup B = true →
      get k B = some (.map b) → get k O = some (.map o) →
      merge (.map O) (.map B) = .ok R →
      ∃ r, merge (.map o) (.map b) = .ok r ∧ get k R = some (.map r)) ∧
    (∀ (path : List Scalar) (B O R b o : List (Scalar × Node)), Node.WF (.map B) = true →
      merge (.map O) (.map B) = .ok R →
      getPath path (.map B) = some (.map b) → getPath path (.map O) = some (.map o) →
      (∃ r, merge (.map o) (.map b) = .ok r ∧ getPath path (.map R) = some (.map r)) ∧
      ∀ k, (get k o = none → getPath (path ++ [k]) (.map R) = get k b) ∧
        (∀ x y, get k b = some x → x.isMap = false → get k o = some y →
          getPath (path ++ [k]) (.map R) = some y)) ∧
    merge (.map exOverride) (.map exBase) = .ok exMerged ∧
    merge (.map exDeepOverride) (.map exDeepBase) = .ok exDeepMerged := by
  refine ⟨?_, ?_, rfl, rfl⟩
  · intro B O R b o k hB hb ho hR
    obtain ⟨out, hout, hRout⟩ := merge_map_ok hR
    obtain ⟨r, hr, hgr⟩ :=
      (get_mergeApp_of_mem O k (.map b) B [] out ((keysNodup_iff B).mp hB) hout hb).2.2
        (.map o) ho rfl
    exact ⟨r, hr, by rw [hRout, get_mergeRole_of_mem_app B hb, hgr]⟩
  · intro path B O R b o hwf hR hb ho
    exact ⟨merge_at_path path B O R b o hwf hR hb ho,
      fun k => merge_leaf_at_path path B O R b o k hwf hR hb ho⟩

/-- C2 at the example of the specification, under the key `a`, and at the
three-level example: the leaf `l1.l2.l3` takes the override value 9 and its
sibling `l1.l2.s3` keeps the base value. -/
theorem merge_recurses_on_mappings_witness :
    (∃ r, merge (.map [(.str "y", num 9)]) (.map [(.str "x", num 1), (.str "y", num 2)]) =
        .ok r ∧ get (.str "a") exMerged = some (.map r)) ∧
      getPath ([.str "l1", .str "l2"] ++ [.str "l3"]) (.map exDeepMerged) = some (num 9) ∧
      getPath ([.str "l1", .str "l2"] ++ [.str "s3"]) (.map exDeepMerged) =
        get (.str "s3") [(.str "l3", num 1), (.str "s3", num 2)] :=
  ⟨merge_recurses_on_mappings.1 exBase exOverride exMerged
      [(.str "x", num 1), (.str "y", num 2)] [(.str "y", num 9)] (.str "a")
      (by decide) rfl rfl rfl,
    ((merge_recurses_on_mappings.2.1 [.str "l1", .str "l2"] exDeepBase exDeepOverride
      exDeepMerged [(.str "l3", num 1), (.str "s3", num 2)] [(.str "l3", num 9)]
      (by decide) rfl rfl rfl).2 (.str "l3")).2 (num 1) (num 9) rfl rfl rfl,
    ((merge_recurses_on_mappings.2.1 [.str "l1", .str "l2"] exDeepBase exDeepOverride
      exDeepMerged [(.str "l3", num 1), (.str "s3", num 2)] [(.str "l3", num 9)]
      (by decide) rfl rfl rfl).2 (.str "s3")).1 rfl⟩

/-- C3: a key of the base that the override lacks keeps the base value, and a
key of the override that the base lacks keeps the override value, whatever the
kind of the value. -/
theorem merge_passes_one_sided_keys (B O R : List (Scalar × Node))
    (hB : keysNodup B = true) (hO : keysNodup O = true)
    (hR : merge (.map O) (.map B) = .ok R) :
    (∀ k, get k O = none → get k R = get k B) ∧
    (∀ k, get k B = none → get k R = get k O) := by
  obtain ⟨out, hout, hRout⟩ := merge_map_ok hR
  have hBn := (keysNodup_iff B).mp hB
  have hOn := (keysNodup_iff O).mp hO
  constructor
  · intro k hk
    cases hgb : get k B with
    | none =>
      rw [hRout, get_mergeRole_of_not_mem B k O out ((get_eq_none_iff k O).mp hk),
        get_mergeApp_of_not_mem O k B [] out hout ((get_eq_none_iff k B).mp hgb)]
      rfl
    | some v =>
      rw [hRout, get_mergeRole_of_mem_app B hgb]
      exact (get_mergeApp_of_mem O k v B [] out hBn hout hgb).1 hk
  · intro k hk
    cases hgo : get k O with
    | none =>
      rw [hRout, get_mergeRole_of_not_mem B k O out ((get_eq_none_iff k O).mp hgo),
        get_mergeApp_of_not_mem O k B [] out hout ((get_eq_none_iff k B).mp hk)]
      rfl
    | some v =>
      rw [hRout]
      exact get_mergeRole_of_mem B hk O out hOn hgo

/-- C3 at the example of the specification: `z` comes from the base and `w`
from the override. -/
theorem merge_passes_one_sided_keys_witness :
    get (.str "z") exMerged = get (.str "z") exBase ∧
      get (.str "w") exMerged = get (.str "w") exOverride :=
  ⟨(merge_passes_one_sided_keys exBase exOverride exMerged (by decide) (by decide) rfl).1
      (.str "z") rfl,
    (merge_passes_one_sided_keys exBase exOverride exMerged (by decide) (by decide) rfl).2
      (.str "w") rfl⟩

/-- C4: when the base and the override share no key, the merge succeeds and
the merged map has exactly the keys of the two maps, each once, and each key
holds the value of the map it came from. -/
theorem merge_disjoint_is_union (B O : List (Scalar × Node))
    (hB : keysNodup B = true) (hO : keysNodup O = true)
    (hdisj : ∀ k, k ∈ keys B → k ∉ keys O) :
    ∃ R, merge (.map O) (.map B) = .ok R ∧
      (∀ k, k ∈ keys R ↔ k ∈ keys B ∨ k ∈ keys O) ∧
      (keys R).Nodup ∧
      (∀ k v, get k B = some v → get k R = some v) ∧
      (∀ k v, get k O = some v → get k R = some v) := by
  have hBn := (keysNodup_iff B).mp hB
  have hOn := (keysNodup_iff O).mp hO
  obtain ⟨out, hout⟩ := mergeApp_ok_of_disjoint O B []
    (fun k hk => (get_eq_none_iff k O).mpr (hdisj k hk))
  refine ⟨mergeRole B O out, by simp only [merge, reflectMap, hout], ?_, ?_, ?_, ?_⟩
  · intro k
    rw [mem_keys_mergeRole, mem_keys_mergeApp O k B [] out hout]
    constructor
    · rintro ((h | h) | h)
      · simp [keys] at h
      · exact Or.inl h
      · exact Or.inr h.1
    · rintro (h | h)
      · exact Or.inl (Or.inr h)
      · exact Or.inr ⟨h, (get_eq_none_iff k B).mpr (fun hb => hdisj k hb h)⟩
  · exact nodup_keys_mergeRole B O out
      (nodup_keys_mergeApp O B [] out hout (by simp [keys]))
  · intro k v hv
    rw [get_mergeRole_of_mem_app B hv]
    exact (get_mergeApp_of_mem O k v B [] out hBn hout hv).1
      ((get_eq_none_iff k O).mpr (hdisj k (mem_keys_of_get hv)))
  · intro k v hv
    exact get_mergeRole_of_mem B
      ((get_eq_none_iff k B).mpr (fun hb => hdisj k hb (mem_keys_of_get hv))) O out hOn hv

/-- C4 at the base `{ports: [80, 443], name: app}` and the override
`{y: 9}`, which share no key. -/
theorem merge_disjoint_is_union_witness :
    ∃ R, merge (.map [(.str "y", num 9)]) (.map exSeqBase) = .ok R ∧
      (∀ k, k ∈ keys R ↔ k ∈ keys exSeqBase ∨ k ∈ keys [(.str "y", num 9)]) ∧
      (keys R).Nodup ∧
      (∀ k v, get k exSeqBase = some v → get k R = some v) ∧
      (∀ k v, get k [(.str "y", num 9)] = some v → get k R = some v) :=
  merge_disjoint_is_union exSeqBase [(.str "y", num 9)] (by decide) (by decide)
    (by decide)

/-- C5, as the code behaves: when the base holds a mapping under a key and the
override a value that is not a mapping, the merge produces no map and stops on
a run-time panic: the panic of reflect on a nil value, or a failed type
assertion that reports a dynamic type other than a map and the asserted map
type. -/
theorem merge_mismatch_panics (B O b : List (Scalar × Node)) (k : Scalar) (o : Node)
    (hb : get k B = some (.map b)) (ho : get k O = some o) (hnm : o.isMap = false) :
    merge (.map O) (.map B) = .error .reflectZeroValue ∨
      ∃ c, merge (.map O) (.map B) = .error (.interfaceConversion c .map) ∧
        c ≠ .map ∧ c ≠ .nil := by
  obtain ⟨e, he⟩ := mergeApp_fails_on_mismatch O ho hnm B [] hb
  have hm : merge (.map O) (.map B) = .error e := by
    simp only [merge, reflectMap, he]
  obtain ⟨x, hx, hex⟩ := merge_error_shape _ _ e hm
  rw [hm, hex]
  rcases reflectMapPanic_cases hx with h | ⟨c, hc, h1, h2⟩
  · exact Or.inl (by rw [h])
  · exact Or.inr ⟨c, by rw [hc], h1, h2⟩

/-- C5 at the base `{a: {x: 1, y: 2}, z: 5}` and the override `{a: 3}`. -/
theorem merge_mismatch_panics_witness :
    merge (.map [(.str "a", num 3)]) (.map exBase) = .error .reflectZeroValue ∨
      ∃ c, merge (.map [(.str "a", num 3)]) (.map exBase) =
          .error (.interfaceConversion c .map) ∧
        c ≠ .map ∧ c ≠ .nil :=
  merge_mismatch_panics exBase [(.str "a", num 3)] [(.str "x", num 1), (.str "y", num 2)]
    (.str "a") (num 3) rfl rfl rfl

/-- C5 as stated fails: a mapping under `a` met by the scalar 3 and a mapping
under `b` met by the scalar 3 stop on the same failure, an interface
conversion of an int to a map, so no reading of the failure gives the key. -/
theorem merge_mismatch_does_not_name_key :
    merge (.map [(.str "a", num 3)]) (.map [(.str "a", .map [])]) =
        .error (.interfaceConversion .int .map) ∧
      merge (.map [(.str "b", num 3)]) (.map [(.str "b", .map [])]) =
        .error (.interfaceConversion .int .map) ∧
      ¬ ∃ keyOf : Failure → Scalar, ∀ (B O b : List (Scalar × Node)) (k : Scalar) (o : Node),
        get k B = some (.map b) → get k O = some o → o.isMap = false →
        ∃ e, merge (.map O) (.map B) = .error e ∧ keyOf e = k := by
  refine ⟨rfl, rfl, ?_⟩
  rintro ⟨keyOf, h⟩
  obtain ⟨e1, he1, hk1⟩ :=
    h [(.str "a", .map [])] [(.str "a", num 3)] [] (.str "a") (num 3) rfl rfl rfl
  obtain ⟨e2, he2, hk2⟩ :=
    h [(.str "b", .map [])] [(.str "b", num 3)] [] (.str "b") (num 3) rfl rfl rfl
  have h1 : merge (.map [(.str "a", num 3)]) (.map [(.str "a", .map [])]) =
      .error (.interfaceConversion .int .map) := rfl
  have h2 : merge (.map [(.str "b", num 3)]) (.map [(.str "b", .map [])]) =
      .error (.interfaceConversion .int .map) := rfl
  rw [h1] at he1
  rw [h2] at he2
  simp only [Except.error.injEq] at he1 he2
  rw [← he1] at hk1
  rw [← he2] at hk2
  rw [hk1] at hk2
  exact absurd hk2 (by decide)

/-- C6: when, along every path of keys present in both trees, the override
holds a mapping wherever the base does, the merge returns a map. -/
theorem merge_succeeds_when_compatible (B O : List (Scalar × Node))
    (h : compatible O B = true) : ∃ R, merge (.map O) (.map B) = .ok R :=
  ok_of_compatible_node (.map B) O B rfl h

/-- C6 at the example of the specification. -/
theorem merge_succeeds_when_compatible_witness :
    compatible exOverride exBase = true ∧
      ∃ R, merge (.map exOverride) (.map exBase) = .ok R :=
  ⟨rfl, merge_succeeds_when_compatible exBase exOverride rfl⟩

/-- C7 on the code: with the roots `base` and `prod`, asking for the absent
base `staging` stops on an interface conversion of nil to a map, which carries
no name, while asking for the absent override `staging` stops on the message
that carries the name. -/
theorem resolve_absent_base_is_not_reported :
    resolve exDoc "in.yaml" "staging" "prod" = .error (.interfaceConversion .nil .map) ∧
      resolve exDoc "in.yaml" "base" "staging" = .error (.roleNotFound "staging" "in.yaml") :=
  ⟨rfl, rfl⟩

/-- C8, as the code behaves: when the base name leads to a value that is not a
mapping, or the base name leads to a mapping and the override name to a value
that is not one, role resolution gives no pair, `run` stops before `merge`, and
the failure is the failed type assertion on that value, reporting its dynamic
type. -/
theorem resolve_non_mapping_root_panics (D : List (Scalar × Node))
    (inputFile defaultRole role : String) (v : Node) (hnm : v.isMap = false)
    (h : get (.str defaultRole) D = some v ∨
      ((∃ b, get (.str defaultRole) D = some (.map b)) ∧ get (.str role) D = some v)) :
    resolve D inputFile defaultRole role = .error (.interfaceConversion v.kind .map) ∧
      run D inputFile defaultRole role false = .error (.interfaceConversion v.kind .map) ∧
      v.kind ≠ .map := by
  have hres : resolve D inputFile defaultRole role =
      .error (.interfaceConversion v.kind .map) := by
    rcases h with h | ⟨⟨b, hb⟩, hr⟩
    · simp only [resolve, index, h, Option.getD_some, assertMap_of_not_map hnm]
    · have hb' : assertMap (.map b) = .ok b := rfl
      simp only [resolve, index, hb, hr, Option.getD_some, hb', assertMap_of_not_map hnm]
  refine ⟨hres, by simp only [run, hres, Bool.false_eq_true, if_false], ?_⟩
  exact node_kind_ne_map hnm

/-- C8 at a document whose root `base` is the scalar 1, and at a document
whose base is a mapping and whose override root is the integer
18446744073709551615, a `uint64`, or null. -/
theorem resolve_non_mapping_root_panics_witness :
    (resolve exScalarRoots "in.yaml" "base" "prod" = .error (.interfaceConversion .int .map) ∧
      run exScalarRoots "in.yaml" "base" "prod" false =
        .error (.interfaceConversion .int .map) ∧
      Kind.int ≠ Kind.map) ∧
    (resolve exBigRoot "in.yaml" "base" "big" = .error (.interfaceConversion .uint64 .map) ∧
      run exBigRoot "in.yaml" "base" "big" false =
        .error (.interfaceConversion .uint64 .map) ∧
      Kind.uint64 ≠ Kind.map) ∧
    (resolve exBigRoot "in.yaml" "base" "none" = .error (.interfaceConversion .nil .map) ∧
      run exBigRoot "in.yaml" "base" "none" false =
        .error (.interfaceConversion .nil .map) ∧
      Kind.nil ≠ Kind.map) :=
  ⟨resolve_non_mapping_root_panics exScalarRoots "in.yaml" "base" "prod" (num 1) rfl
      (Or.inl rfl),
    resolve_non_mapping_root_panics exBigRoot "in.yaml" "base" "big" maxUint64 rfl
      (Or.inr ⟨⟨exBase, rfl⟩, rfl⟩),
    resolve_non_mapping_root_panics exBigRoot "in.yaml" "base" "none" (.scalar .null) rfl
      (Or.inr ⟨⟨exBase, rfl⟩, rfl⟩)⟩

/-- C8 as stated fails: the scalar roots `base` and `other` of one document
stop role resolution on the same failure, an interface conversion of an int to
a map, so no reading of the failure gives the name. -/
theorem resolve_non_mapping_root_does_not_name_root :
    resolve exScalarRoots "in.yaml" "base" "prod" = .error (.interfaceConversion .int .map) ∧
      resolve exScalarRoots "in.yaml" "other" "prod" =
        .error (.interfaceConversion .int .map) ∧
      ¬ ∃ nameOf : Failure → String, ∀ (D : List (Scalar × Node))
        (inputFile defaultRole role : String) (v : Node),
        get (.str defaultRole) D = some v → v.isMap = false →
        ∃ e, resolve D inputFile defaultRole role = .error e ∧ nameOf e = defaultRole := by
  refine ⟨rfl, rfl, ?_⟩
  rintro ⟨nameOf, h⟩
  obtain ⟨e1, he1, hn1⟩ := h exScalarRoots "in.yaml" "base" "prod" (num 1) rfl rfl
  obtain ⟨e2, he2, hn2⟩ := h exScalarRoots "in.yaml" "other" "prod" (num 2) rfl rfl
  have h1 : resolve exScalarRoots "in.yaml" "base" "prod" =
      .error (.interfaceConversion .int .map) := rfl
  have h2 : resolve exScalarRoots "in.yaml" "other" "prod" =
      .error (.interfaceConversion .int .map) := rfl
  rw [h1] at he1
  rw [h2] at he2
  simp only [Except.error.injEq] at he1 he2
  rw [← he1] at hn1
  rw [← he2] at hn2
  rw [hn1] at hn2
  exact absurd hn2 (by decide)

/-- C9: on a document whose keys are all strings, `getStringKeys` returns a
list as long as the document in which every key occurs exactly once and
nothing else occurs; on a document with a key that is not a string it fails;
and with the flag for listing roots `run` returns that list whatever the two
names are, without role resolution or merge. -/
theorem getStringKeys_complete (D : List (Scalar × Node)) :
    ((∀ k ∈ keys D, ∃ s, k = .str s) → keysNodup D = true →
      ∃ l, getStringKeys D = .ok l ∧ l.length = D.length ∧
        (∀ s, Scalar.str s ∈ keys D → l.count s = 1) ∧
        (∀ s ∈ l, Scalar.str s ∈ keys D)) ∧
    ((∃ k ∈ keys D, ∀ s, k ≠ .str s) → ∃ e, getStringKeys D = .error e) ∧
    (∀ inputFile defaultRole role, run D inputFile defaultRole role true =
      match getStringKeys D with
      | .error e => .error e
      | .ok availableRoles => .ok (.roots availableRoles)) := by
  refine ⟨?_, ?_, ?_⟩
  · intro hstr hnd
    obtain ⟨names, hn, hloop⟩ := getStringKeysLoop_strings D [] hstr
    simp only [List.length_nil, List.nil_append] at hloop
    have hmem : ∀ s, s ∈ names ↔ Scalar.str s ∈ keys D := by
      intro s
      rw [← hn, List.mem_map]
      constructor
      · intro h; exact ⟨s, h, rfl⟩
      · rintro ⟨t, ht, hts⟩
        simp only [Scalar.str.injEq] at hts
        rw [← hts]; exact ht
    have hnodup : names.Nodup := by
      have h := (keysNodup_iff D).mp hnd
      rw [← hn] at h
      exact List.Nodup.of_map _ h
    refine ⟨names, hloop, ?_, ?_, ?_⟩
    · have h := congrArg List.length hn
      simpa [keys] using h
    · intro s hs
      exact List.count_eq_one_of_mem hnodup ((hmem s).mpr hs)
    · intro s hs
      exact (hmem s).mp hs
  · intro h
    exact getStringKeysLoop_non_string D 0 _ h
  · intro inputFile defaultRole role
    simp only [run, if_true]

/-- C9 at a document with the roots `base`, `staging` and `prod`. -/
theorem getStringKeys_complete_witness :
    getStringKeys exThreeRoots = .ok ["base", "staging", "prod"] ∧
      ∃ l, getStringKeys exThreeRoots = .ok l ∧ l.length = exThreeRoots.length ∧
        (∀ s, Scalar.str s ∈ keys exThreeRoots → l.count s = 1) ∧
        (∀ s ∈ l, Scalar.str s ∈ keys exThreeRoots) :=
  ⟨rfl, (getStringKeys_complete exThreeRoots).1
    (by
      intro k hk
      simp only [keys, exThreeRoots, List.map_cons, List.map_nil, List.mem_cons,
        List.mem_singleton, List.not_mem_nil, or_false] at hk
      rcases hk with h | h | h
      · exact ⟨"base", h⟩
      · exact ⟨"staging", h⟩
      · exact ⟨"prod", h⟩)
    (by decide)⟩

/-- C10: merging a well-formed map with itself succeeds and returns the same
map, equal at every nesting level. -/
theorem merge_self (B : List (Scalar × Node)) (h : Node.WF (.map B) = true) :
    merge (.map B) (.map B) = .ok B :=
  self_merge_of_wf (.map B) h B rfl

/-- C10 at the base of the specification example. -/
theorem merge_self_witness :
    Node.WF (.map exBase) = true ∧ merge (.map exBase) (.map exBase) = .ok exBase :=
  ⟨by decide, merge_self exBase (by decide)⟩

end YamlMerge
